import Mathlib

/-!
Verification development for a four-stage menu ETL pipeline
(collector / structurer / loader / Streamlit dashboard).

The Python sources are shallowly embedded: every cell or JSON value is a
`Value`; `json.loads` is modelled by a fuel-based recursive-descent parser
(`parseVal` / `loadsChars`); Python string helpers (`str.strip`, `str()`,
`re.findall` digit runs) are modelled on `List Char`.  Known modelling
boundaries, stated where they occur: fractional/exponent JSON numbers are
rejected by the model (the pipeline's data never contains them), and
`str()` of containers uses a simplified single-quote repr.
-/

/-- A Python/JSON value as it flows through the pipeline: JSON scalars and
containers, plus `datetime` objects (carrying their isoformat string) which
occur in loader records, and `null` which also stands for pandas NaN. -/
inductive Value where
  | null
  | bool (b : Bool)
  | num (n : Int)
  | str (s : String)
  | arr (xs : List Value)
  | obj (kvs : List (String × Value))
  | datetime (iso : String)

/-- A loader/dashboard record: a Python dict as an association list. -/
abbrev Record := List (String × Value)

mutual
/-- Structural boolean equality on `Value` (Python `==` restricted to
same-shaped values; used for `nunique`-style deduplication). -/
def vbeq : Value → Value → Bool
  | Value.null, Value.null => true
  | Value.bool a, Value.bool b => a == b
  | Value.num a, Value.num b => a == b
  | Value.str a, Value.str b => a == b
  | Value.arr a, Value.arr b => vbeqList a b
  | Value.obj a, Value.obj b => vbeqKV a b
  | Value.datetime a, Value.datetime b => a == b
  | _, _ => false
def vbeqList : List Value → List Value → Bool
  | [], [] => true
  | x :: xs, y :: ys => vbeq x y && vbeqList xs ys
  | _, _ => false
def vbeqKV : List (String × Value) → List (String × Value) → Bool
  | [], [] => true
  | (k, v) :: xs, (l, w) :: ys => k == l && vbeq v w && vbeqKV xs ys
  | _, _ => false
end

mutual
/-- Python `repr` of a value, simplified: strings are single-quoted without
escape handling; dicts/lists recurse.  Only exercised by `str()` on
container cells, which the pipeline's data never produces. -/
def pyRepr : Value → String
  | Value.null => "None"
  | Value.bool true => "True"
  | Value.bool false => "False"
  | Value.num n => toString n
  | Value.str s => "\x27" ++ s ++ "\x27"
  | Value.datetime iso => iso
  | Value.arr xs => "[" ++ pyReprList xs ++ "]"
  | Value.obj kvs => "\x7b" ++ pyReprKV kvs ++ "\x7d"
def pyReprList : List Value → String
  | [] => ""
  | [x] => pyRepr x
  | x :: xs => pyRepr x ++ ", " ++ pyReprList xs
def pyReprKV : List (String × Value) → String
  | [] => ""
  | [(k, v)] => "\x27" ++ k ++ "\x27: " ++ pyRepr v
  | (k, v) :: xs => "\x27" ++ k ++ "\x27: " ++ pyRepr v ++ ", " ++ pyReprKV xs
end

/-- Python `str()`: identity on strings, `repr`-like elsewhere. -/
def pyStr : Value → String
  | Value.str s => s
  | v => pyRepr v

/-- Whitespace stripped by Python `str.strip()` (ASCII subset). -/
def isPyWs (c : Char) : Bool :=
  c = ' ' || c = '\t' || c = '\n' || c = '\r' || c = '\x0b' || c = '\x0c'

/-- Python `str.strip()` on a character list. -/
def pyStrip (cs : List Char) : List Char :=
  ((cs.dropWhile isPyWs).reverse.dropWhile isPyWs).reverse

/-! ## A model of `json.loads`

Recursive-descent parser over `List Char` with a fuel parameter (the fuel
`2 * length + 8` always suffices for inputs the grammar accepts).  The
grammar follows RFC 8259 as implemented by Python's `json` module, except
that fractional and exponent number forms are rejected instead of producing
floats (no float values exist in the model). -/

/-- JSON insignificant whitespace. -/
def isJsonWs (c : Char) : Bool :=
  c = ' ' || c = '\t' || c = '\n' || c = '\r'

/-- Skip leading JSON whitespace. -/
def skipWs : List Char → List Char
  | [] => []
  | c :: cs => if isJsonWs c then skipWs cs else c :: cs

/-- Value of a hexadecimal digit (by code point: digits 48-57, lowercase
97-102, uppercase 65-70). -/
def hexDigit (c : Char) : Option Nat :=
  let n := c.toNat
  if 48 ≤ n ∧ n ≤ 57 then some (n - 48)
  else if 97 ≤ n ∧ n ≤ 102 then some (n - 87)
  else if 65 ≤ n ∧ n ≤ 70 then some (n - 55)
  else none

/-- Single-character JSON string escapes. -/
def escChar (e : Char) : Option Char :=
  if e = 'n' then some '\n'
  else if e = 't' then some '\t'
  else if e = 'r' then some '\r'
  else if e = 'b' then some '\x08'
  else if e = 'f' then some '\x0c'
  else if e = '"' then some '"'
  else if e = '\\' then some '\\'
  else if e = '/' then some '/'
  else none

/-- Decode the four hex digits of a `\u` escape. -/
def hex4 : List Char → Option (Char × List Char)
  | a :: b :: c2 :: d :: rest3 =>
    match hexDigit a, hexDigit b, hexDigit c2, hexDigit d with
    | some ha, some hb, some hc, some hd =>
      some (Char.ofNat (ha * 4096 + hb * 256 + hc * 16 + hd), rest3)
    | _, _, _, _ => none
  | _ => none

/-- Decode one escape sequence after a backslash. -/
def decodeEscape : List Char → Option (Char × List Char)
  | [] => none
  | e :: rest2 =>
    if e = 'u' then hex4 rest2
    else
      match escChar e with
      | some ec => some (ec, rest2)
      | none => none

/-- Parse the body of a JSON string (after the opening quote), accumulating
characters in reverse.  Raw control characters are rejected (strict mode).
The fuel is at least the input length wherever this is called, and one
character is consumed per step, so the fuel never runs out on accepted
input. -/
def parseStringBody : Nat → List Char → List Char → Option (String × List Char)
  | 0, _, _ => none
  | Nat.succ fl, acc, cs =>
    match cs with
    | [] => none
    | c :: rest =>
      if c = '"' then some (String.mk acc.reverse, rest)
      else if c = '\\' then
        match decodeEscape rest with
        | some p => parseStringBody fl (p.1 :: acc) p.2
        | none => none
      else if c.toNat < 32 then none
      else parseStringBody fl (c :: acc) rest

/-- Numeric value of a digit run. -/
def digitsToNat (ds : List Char) : Nat :=
  ds.foldl (fun a c => 10 * a + (c.toNat - '0'.toNat)) 0

/-- Parse an unsigned JSON integer at the head of the input.  Leading-zero
forms are rejected; a following `.`, `e` or `E` (a float form) is rejected
by the model. -/
def parseIntPart (cs : List Char) : Option (Int × List Char) :=
  match cs.takeWhile Char.isDigit with
  | [] => none
  | d0 :: drest =>
    if d0 = '0' ∧ drest ≠ [] then none
    else
      match cs.dropWhile Char.isDigit with
      | r0 :: r => if r0 = '.' ∨ r0 = 'e' ∨ r0 = 'E' then none
                   else some ((digitsToNat (d0 :: drest) : Nat), r0 :: r)
      | [] => some ((digitsToNat (d0 :: drest) : Nat), [])

/-- Parse a JSON number (optionally negated integer). -/
def parseNum (cs : List Char) : Option (Value × List Char) :=
  match cs with
  | [] => none
  | c :: rest =>
    if c = '-' then (parseIntPart rest).map (fun p => (Value.num (-p.1), p.2))
    else (parseIntPart (c :: rest)).map (fun p => (Value.num p.1, p.2))

mutual
/-- Parse one JSON value after skipping whitespace. -/
def parseVal : Nat → List Char → Option (Value × List Char)
  | 0, _ => none
  | Nat.succ f, cs =>
    match skipWs cs with
    | [] => none
    | c :: rest =>
      if c = '"' then
        match parseStringBody f [] rest with
        | some (s, r) => some (Value.str s, r)
        | none => none
      else if c = '[' then parseArrStart f rest
      else if c = '{' then parseObjStart f rest
      else if List.isPrefixOf ['n', 'u', 'l', 'l'] (c :: rest) then
        some (Value.null, (c :: rest).drop 4)
      else if List.isPrefixOf ['t', 'r', 'u', 'e'] (c :: rest) then
        some (Value.bool true, (c :: rest).drop 4)
      else if List.isPrefixOf ['f', 'a', 'l', 's', 'e'] (c :: rest) then
        some (Value.bool false, (c :: rest).drop 5)
      else parseNum (c :: rest)

/-- Parse the remainder of a JSON array after `[`. -/
def parseArrStart : Nat → List Char → Option (Value × List Char)
  | 0, _ => none
  | Nat.succ f, cs =>
    match skipWs cs with
    | [] => parseArrItems f cs []
    | c :: rest =>
      if c = ']' then some (Value.arr [], rest) else parseArrItems f cs []

/-- Parse array elements separated by commas, terminated by `]`. -/
def parseArrItems : Nat → List Char → List Value → Option (Value × List Char)
  | 0, _, _ => none
  | Nat.succ f, cs, acc =>
    match parseVal f cs with
    | none => none
    | some (v, r) =>
      match skipWs r with
      | [] => none
      | c :: r2 =>
        if c = ',' then parseArrItems f r2 (v :: acc)
        else if c = ']' then some (Value.arr (v :: acc).reverse, r2)
        else none

/-- Parse the remainder of a JSON object after the opening brace. -/
def parseObjStart : Nat → List Char → Option (Value × List Char)
  | 0, _ => none
  | Nat.succ f, cs =>
    match skipWs cs with
    | [] => parseObjItems f cs []
    | c :: rest =>
      if c = '}' then some (Value.obj [], rest) else parseObjItems f cs []

/-- Parse object members separated by commas, terminated by the closing
brace. -/
def parseObjItems : Nat → List Char → List (String × Value) → Option (Value × List Char)
  | 0, _, _ => none
  | Nat.succ f, cs, acc =>
    match skipWs cs with
    | [] => none
    | c :: r =>
      if c = '"' then
        match parseStringBody f [] r with
        | none => none
        | some (k, r2) =>
          match skipWs r2 with
          | [] => none
          | c3 :: r3 =>
            if c3 = ':' then
              match parseVal f r3 with
              | none => none
              | some (v, r4) =>
                match skipWs r4 with
                | [] => none
                | c4 :: r5 =>
                  if c4 = ',' then parseObjItems f r5 ((k, v) :: acc)
                  else if c4 = '}' then some (Value.obj (((k, v) :: acc).reverse), r5)
                  else none
            else none
      else none
end

/-- `json.loads` on a character list: parse one value, then require the
remainder to be whitespace. -/
def loadsChars (cs : List Char) : Option Value :=
  match parseVal (2 * cs.length + 8) cs with
  | some (v, rest) => if rest.all isJsonWs then some v else none
  | none => none

/-- `json.loads` on a string. -/
def loads (s : String) : Option Value := loadsChars s.data

/-! ## Dashboard: `streamlit_app.py` -/

/-- Whether a scalar is missing in the pandas sense (`None`/NaN). -/
def isNaScalar : Value → Bool
  | Value.null => true
  | _ => false

/-- Models `if pd.isna(x):` as used at the top of `clean_calories`.
On a scalar, `pd.isna` yields a `Bool`.  On a list, `pd.isna` yields an
elementwise boolean array; `if` on a one-element array takes its single
element's truth value, while `if` on any other array raises `ValueError`
("truth value of an array ... is ambiguous"), modelled as `Except.error`. -/
def pd_isna_truthy : Value → Except Unit Bool
  | Value.null => Except.ok true
  | Value.arr [x] => Except.ok (isNaScalar x)
  | Value.arr _ => Except.error ()
  | _ => Except.ok false

/-- `re.findall(r"\d+", s)`: the maximal digit runs of `s`, left to right
(ASCII digits). -/
def digitRunsAux : List Char → List Char → List (List Char)
  | [], acc => if acc = [] then [] else [acc.reverse]
  | c :: cs, acc =>
    if c.isDigit then digitRunsAux cs (c :: acc)
    else if acc = [] then digitRunsAux cs []
    else acc.reverse :: digitRunsAux cs []

/-- Maximal digit runs of a character list. -/
def digitRuns (cs : List Char) : List (List Char) := digitRunsAux cs []

/-- `clean_calories` from `streamlit_app.py`: `None` on a missing value,
else `int` of the first digit run of `str(x)`, `None` if there is none.
The `pd.isna` truthiness test sits outside the `try`, so it can raise
(`Except.error`); everything inside the `try` is caught and total. -/
def clean_calories (v : Value) : Except Unit (Option Int) :=
  match pd_isna_truthy v with
  | Except.error e => Except.error e
  | Except.ok true => Except.ok none
  | Except.ok false =>
    match digitRuns (pyStr v).data with
    | [] => Except.ok none
    | d :: _ => Except.ok (some ((digitsToNat d : Nat) : Int))

/-- `s.split(",")` on a character list (Python semantics: `n` separators
yield `n + 1` pieces, empties preserved). -/
def splitCommaAux : List Char → List Char → List (List Char)
  | [], cur => [cur.reverse]
  | c :: cs, cur =>
    if c = ',' then cur.reverse :: splitCommaAux cs []
    else splitCommaAux cs (c :: cur)

/-- Split a character list on commas. -/
def splitComma (cs : List Char) : List (List Char) := splitCommaAux cs []

/-- Per-row allergen normalization (loop body of the allergen section of
`main` in `streamlit_app.py`): a list is used as-is; otherwise the value is
stringified and stripped; a string bracketed by `[`/`]` is JSON-decoded
(contributing nothing if decoding fails; a successful decode of a
`[`-headed string is necessarily an array); any other non-empty string is
split on commas with each tag stripped and empty tags discarded; the empty
string contributes nothing. -/
def normalizeAllergens (a : Value) : List Value :=
  match a with
  | Value.arr xs => xs
  | _ =>
    let s := pyStrip (pyStr a).data
    if s.head? = some '[' ∧ s.getLast? = some ']' then
      match loadsChars s with
      | some (Value.arr xs) => xs
      | _ => []
    else if s ≠ [] then
      ((splitComma s).map pyStrip).filterMap
        (fun t => if t = [] then none else some (Value.str (String.mk t)))
    else []

/-- A pandas DataFrame: a column list plus one association list per row. -/
structure Frame where
  cols : List String
  rows : List Record

/-- Key lookup in a record (first binding wins, as in a Python dict). -/
def lookupKey : Record → String → Option Value
  | [], _ => none
  | (k, v) :: rest, key => if k = key then some v else lookupKey rest key

/-- A row's cell in a column; a missing key is NaN. -/
def cell (r : Record) (c : String) : Value := (lookupKey r c).getD Value.null

/-- Elementwise pandas `== "s"` against a string scalar. -/
def eqStr (v : Value) (s : String) : Bool :=
  match v with
  | Value.str t => t = s
  | _ => false

/-- Elementwise pandas `== True` (Python `True == 1`). -/
def eqTrue (v : Value) : Bool :=
  match v with
  | Value.bool b => b
  | Value.num n => n = 1
  | _ => false

/-- The category filter step of `main`: keep rows whose `category` cell
equals the selection, but only when a category other than `"All"` is
selected and the column exists. -/
def filterCategory (df : Frame) (sel : String) : Frame :=
  if sel ≠ "All" ∧ "category" ∈ df.cols then
    ⟨df.cols, df.rows.filter (fun r => eqStr (cell r "category") sel)⟩
  else df

/-- A boolean-toggle filter step of `main` (`is_vegetarian` /
`is_gluten_free`): keep rows whose cell `== True`, but only when the toggle
is on and the column exists in the (already filtered) frame. -/
def filterFlag (df : Frame) (col : String) (toggle : Bool) : Frame :=
  if toggle = true ∧ col ∈ df.cols then
    ⟨df.cols, df.rows.filter (fun r => eqTrue (cell r col))⟩
  else df

/-- The three sidebar filters of `main`, applied in source order: category
equality, then the vegetarian and gluten-free toggles. -/
def applyFilters (df : Frame) (sel : String) (veg gf : Bool) : Frame :=
  filterFlag (filterFlag (filterCategory df sel) "is_vegetarian" veg) "is_gluten_free" gf

/-- Membership test with `vbeq` (for `nunique`). -/
def memV (v : Value) (l : List Value) : Bool := l.any (vbeq v)

/-- Distinct values of a list under `vbeq`. -/
def dedupV : List Value → List Value
  | [] => []
  | x :: xs => let r := dedupV xs; if memV x r then r else x :: r

/-- pandas `Series.nunique()`: distinct non-missing values. -/
def nunique (l : List Value) : Nat :=
  (dedupV (l.filter (fun v => !isNaScalar v))).length

/-- Numeric contribution of a cell to a pandas `sum()` over a boolean
column (missing values contribute 0; the dashboard's columns are boolean). -/
def pyNum : Value → Int
  | Value.bool b => if b then 1 else 0
  | Value.num n => n
  | _ => 0

/-- `int(df[col].sum())` over a column of cells. -/
def colSum (l : List Value) : Int := (l.map pyNum).sum

/-- The KPI row of `main`: total items, `nunique` of `category` (0 if the
column is absent), and the vegetarian / gluten-free sums (0 if absent) —
all computed from the full frame `df`. -/
def kpis (df : Frame) : Nat × Nat × Int × Int :=
  (df.rows.length,
   if "category" ∈ df.cols then nunique (df.rows.map (fun r => cell r "category")) else 0,
   if "is_vegetarian" ∈ df.cols then colSum (df.rows.map (fun r => cell r "is_vegetarian")) else 0,
   if "is_gluten_free" ∈ df.cols then colSum (df.rows.map (fun r => cell r "is_gluten_free")) else 0)

/-- The part of `main` the filter/KPI claims concern: compute
`filtered_df` from the sidebar selections, and the KPI metrics from the
unfiltered `df`; the table and charts render from the filtered frame. -/
def mainView (df : Frame) (sel : String) (veg gf : Bool) :
    (Nat × Nat × Int × Int) × Frame :=
  let filtered := applyFilters df sel veg gf
  (kpis df, filtered)

/-- Python falsiness of an environment variable (`not SUPABASE_URL`):
unset or empty. -/
def envFalsy : Option String → Bool
  | none => true
  | some s => s.isEmpty

/-- The empty DataFrame. -/
def emptyFrame : Frame := ⟨[], []⟩

/-- Keep the first occurrence of each string. -/
def dedupFirstAux : List String → List String → List String
  | [], _ => []
  | x :: xs, seen =>
    if x ∈ seen then dedupFirstAux xs seen else x :: dedupFirstAux xs (x :: seen)

/-- Column order of `pd.DataFrame(rows)`: keys in order of first
appearance. -/
def frameOfRows (rows : List Record) : Frame :=
  ⟨dedupFirstAux (rows.flatMap (fun r => r.map Prod.fst)) [], rows⟩

/-- The fixed message shown when the connection environment is missing. -/
def msgMissingEnv : String := "Missing SUPABASE_URL or SUPABASE_KEY in environment."

/-- `get_menu_data` from `streamlit_app.py`: the two environment variables
and the outcome of the remote fetch are inputs; the result is the list of
rendered error messages plus the DataFrame.  A falsy environment variable
or a fetch error yields an error message and the empty frame; a successful
fetch whose `data` is `None` yields the empty row list (`res.data or []`). -/
def get_menu_data (url key : Option String)
    (fetch : Except String (Option (List Record))) : List String × Frame :=
  if envFalsy url || envFalsy key then ([msgMissingEnv], emptyFrame)
  else
    match fetch with
    | Except.error e => (["Error fetching data from Supabase: " ++ e], emptyFrame)
    | Except.ok data => ([], frameOfRows (data.getD []))

/-! ## Structurer: `structurer.py` -/

/-- The code-fence cleanup in `structure_menu_simple`: drop a leading
`'''json` marker (7 characters) if present, then drop a trailing `'''`
marker (3 characters) if present (markers written here with backticks in
the source). -/
def stripFence (r : List Char) : List Char :=
  let r1 := if List.isPrefixOf ['`', '`', '`', 'j', 's', 'o', 'n'] r then r.drop 7 else r
  if List.isSuffixOf ['`', '`', '`'] r1 then r1.take (r1.length - 3) else r1

/-- What `structure_menu_simple` feeds to `json.loads`: the model content,
stripped, with fence markers removed. -/
def parseResp (content : String) : Option Value :=
  loadsChars (stripFence (pyStrip content.data))

/-- Python dict assignment `d[k] = v`: overwrite the binding in place if
the key is present, else append it at the end. -/
def setKey : Record → String → Value → Record
  | [], k, v => [(k, v)]
  | (k0, v0) :: rest, k, v =>
    if k0 = k then (k, v) :: rest else (k0, v0) :: setKey rest k v

/-- The constant source URL stamped on every structured record. -/
def sourceUrl : String := "https://www.chick-fil-a.com/menu/sides"

/-- `structure_menu_simple` as a function of the model's response (`none`
models an exception raised by the completion call) and the extraction
timestamp.  The response content is stripped, de-fenced and parsed; a
parse that does not yield an array of objects raises while iterating or
assigning metadata.  Every raised exception is caught by the enclosing
`try`/`except`, which returns the empty list. -/
def structure_menu_simple (ts : String) (resp : Option String) : List Record :=
  match resp with
  | none => []
  | some content =>
    match parseResp content with
    | some (Value.arr items) =>
      match items.mapM (fun it => match it with | Value.obj kvs => some kvs | _ => none) with
      | some objs =>
        objs.map (fun o => setKey (setKey o "source_url" (Value.str sourceUrl))
          "extracted_at" (Value.str ts))
      | none => []
    | _ => []

/-! ## Loader: `loader.py` -/

/-- Outcome of one `upsert(...).execute()` call: success, a response whose
`error` attribute is set, or a raised exception. -/
inductive UpsertResult where
  | ok
  | errorResp (msg : String)
  | raised
  deriving DecidableEq

/-- Per-record preparation in the loader loop: stamp `updated_at` with the
current timestamp, then coerce a datetime-valued `extracted_at` to its
isoformat string. -/
def prepareItem (ts : String) (item : Record) : Record :=
  let item := setKey item "updated_at" (Value.str ts)
  match lookupKey item "extracted_at" with
  | some (Value.datetime d) => setKey item "extracted_at" (Value.str d)
  | _ => item

/-- The loader loop over the parsed JSON array: each record is prepared and
upserted inside its own `try`/`except`; the result is the aggregate success
count reported at the end paired with the list of records for which an
upsert was attempted. -/
def loaderRun (outcome : Record → UpsertResult) (ts : String) :
    List Record → Nat × List Record
  | [] => (0, [])
  | item :: rest =>
    let p := prepareItem ts item
    let r := loaderRun outcome ts rest
    ((if outcome p = UpsertResult.ok then 1 else 0) + r.1, p :: r.2)

/-- Test fixtures: three menu rows and two frames used to instantiate the
dashboard-filter statements at concrete inputs. -/
def wRow1 : Record :=
  [("category", Value.str "sides"), ("is_vegetarian", Value.bool true),
   ("is_gluten_free", Value.bool false)]

/-- Second fixture row. -/
def wRow2 : Record :=
  [("category", Value.str "sides"), ("is_vegetarian", Value.bool false),
   ("is_gluten_free", Value.bool true)]

/-- Third fixture row. -/
def wRow3 : Record :=
  [("category", Value.str "mains"), ("is_vegetarian", Value.bool true),
   ("is_gluten_free", Value.bool true)]

/-- Fixture frame with all three filter columns present. -/
def wFrame : Frame :=
  ⟨["category", "is_vegetarian", "is_gluten_free"], [wRow1, wRow2, wRow3]⟩

/-- Fixture frame with none of the filter columns present. -/
def wFrameNoCat : Frame := ⟨["name"], [[("name", Value.str "x")]]⟩

/-- A suffix that cannot extend a token ending at the boundary: its first
character (if any) is not a digit and not `.`/`e`/`E`. -/
def sufNeutral (suf : List Char) : Prop :=
  ∀ c, suf.head? = some c → c.isDigit = false ∧ c ≠ '.' ∧ c ≠ 'e' ∧ c ≠ 'E'

/-! ## Parser lemmas -/

theorem skipWs_cons_ws {c : Char} (cs : List Char) (h : isJsonWs c = true) :
    skipWs (c :: cs) = skipWs cs := by
  simp [skipWs, h]

theorem skipWs_append (cs suf : List Char) (h : skipWs cs ≠ []) :
    skipWs (cs ++ suf) = skipWs cs ++ suf := by
  induction cs with
  | nil => simp [skipWs] at h
  | cons c cs ih =>
    by_cases hc : isJsonWs c
    · rw [skipWs_cons_ws cs hc] at h
      rw [List.cons_append, skipWs_cons_ws _ hc, skipWs_cons_ws _ hc]
      exact ih h
    · simp [skipWs, hc]

theorem parseVal_nilWs {cs : List Char} (h : skipWs cs = []) :
    ∀ f, parseVal f cs = none := by
  intro f
  cases f with
  | zero => simp [parseVal]
  | succ f => simp [parseVal, h]

theorem parseArrItems_nilWs {cs : List Char} (acc : List Value) (h : skipWs cs = []) :
    ∀ f, parseArrItems f cs acc = none := by
  intro f
  cases f with
  | zero => simp [parseArrItems]
  | succ f => simp [parseArrItems, parseVal_nilWs h]

theorem parseObjItems_nilWs {cs : List Char} (acc : List (String × Value)) (h : skipWs cs = []) :
    ∀ f, parseObjItems f cs acc = none := by
  intro f
  cases f with
  | zero => simp [parseObjItems]
  | succ f => simp [parseObjItems, h]

theorem isPrefixOf_append_mono : ∀ (l cs suf : List Char),
    l.isPrefixOf cs = true → l.isPrefixOf (cs ++ suf) = true := by
  intro l
  induction l with
  | nil => intro cs suf _; simp [List.isPrefixOf]
  | cons a l ih =>
    intro cs suf h
    cases cs with
    | nil => simp [List.isPrefixOf] at h
    | cons b cs =>
      simp only [List.isPrefixOf, Bool.and_eq_true, beq_iff_eq] at h
      simp only [List.cons_append, List.isPrefixOf, Bool.and_eq_true, beq_iff_eq]
      exact ⟨h.1, ih cs suf h.2⟩

theorem isPrefixOf_length_le : ∀ (l cs : List Char),
    l.isPrefixOf cs = true → l.length ≤ cs.length := by
  intro l
  induction l with
  | nil => intro cs _; simp
  | cons a l ih =>
    intro cs h
    cases cs with
    | nil => simp [List.isPrefixOf] at h
    | cons b cs =>
      simp only [List.isPrefixOf, Bool.and_eq_true] at h
      simpa using ih cs h.2

theorem sufNeutral_takeWhile {suf : List Char} (hs : sufNeutral suf) :
    suf.takeWhile Char.isDigit = [] := by
  cases suf with
  | nil => rfl
  | cons c cs =>
    have := (hs c rfl).1
    simp [List.takeWhile_cons, this]

theorem sufNeutral_dropWhile {suf : List Char} (hs : sufNeutral suf) :
    suf.dropWhile Char.isDigit = suf := by
  cases suf with
  | nil => rfl
  | cons c cs =>
    have := (hs c rfl).1
    simp [List.dropWhile_cons, this]

theorem hex4_append (suf : List Char) (rest2 : List Char) (ec : Char) (r2 : List Char)
    (h : hex4 rest2 = some (ec, r2)) : hex4 (rest2 ++ suf) = some (ec, r2 ++ suf) := by
  rcases rest2 with _ | ⟨a, _ | ⟨b, _ | ⟨c2, _ | ⟨d, rest3⟩⟩⟩⟩
  · simp [hex4] at h
  · simp [hex4] at h
  · simp [hex4] at h
  · simp [hex4] at h
  · rcases hA : hexDigit a with _ | na <;>
    rcases hB : hexDigit b with _ | nb <;>
    rcases hC : hexDigit c2 with _ | nc <;>
    rcases hD : hexDigit d with _ | nd <;>
    simp only [hex4, hA, hB, hC, hD, List.cons_append] at h ⊢
    all_goals try exact Option.noConfusion h
    simp only [Option.some.injEq, Prod.mk.injEq] at h
    obtain ⟨rfl, rfl⟩ := h
    rfl

theorem decodeEscape_append (suf : List Char) (rest : List Char) (ec : Char) (r2 : List Char)
    (h : decodeEscape rest = some (ec, r2)) :
    decodeEscape (rest ++ suf) = some (ec, r2 ++ suf) := by
  cases rest with
  | nil => simp [decodeEscape] at h
  | cons e rest2 =>
    by_cases hu : e = 'u'
    · subst hu
      simp only [decodeEscape, reduceIte, List.cons_append] at h ⊢
      exact hex4_append suf rest2 ec r2 h
    · cases hec : escChar e with
      | none => simp [decodeEscape, hu, hec] at h
      | some c0 =>
        simp only [List.cons_append, decodeEscape, if_neg hu, hec,
          Option.some.injEq, Prod.mk.injEq] at h ⊢
        obtain ⟨rfl, rfl⟩ := h
        exact ⟨rfl, rfl⟩

theorem psb_mono : ∀ (fl fl' : Nat), fl ≤ fl' → ∀ (acc cs : List Char) (r : String × List Char),
    parseStringBody fl acc cs = some r → parseStringBody fl' acc cs = some r := by
  intro fl
  induction fl with
  | zero => intro fl' _ acc cs r h; simp [parseStringBody] at h
  | succ fl ih =>
    intro fl' hle acc cs r h
    obtain ⟨fl2, rfl⟩ : ∃ fl2, fl' = fl2 + 1 := ⟨fl' - 1, by omega⟩
    have hle2 : fl ≤ fl2 := by omega
    simp only [parseStringBody] at h ⊢
    cases cs with
    | nil => exact h
    | cons c rest =>
      by_cases h1 : c = '"'
      · simp only [if_pos h1] at h ⊢
        exact h
      · by_cases h2 : c = '\\'
        · simp only [if_neg h1, if_pos h2] at h ⊢
          cases hd : decodeEscape rest with
          | none => rw [hd] at h; exact absurd h (by simp)
          | some p => rw [hd] at h; exact ih fl2 hle2 _ _ r h
        · by_cases h3 : c.toNat < 32
          · simp only [if_neg h1, if_neg h2, if_pos h3] at h
            exact absurd h (by simp)
          · simp only [if_neg h1, if_neg h2, if_neg h3] at h ⊢
            exact ih fl2 hle2 _ _ r h

theorem psb_append (suf : List Char) : ∀ (fl : Nat) (acc cs : List Char) (s : String) (r : List Char),
    parseStringBody fl acc cs = some (s, r) →
    parseStringBody fl acc (cs ++ suf) = some (s, r ++ suf) := by
  intro fl
  induction fl with
  | zero => intro acc cs s r h; simp [parseStringBody] at h
  | succ fl ih =>
    intro acc cs s r h
    simp only [parseStringBody] at h ⊢
    cases cs with
    | nil => exact Option.noConfusion h
    | cons c rest =>
      simp only [List.cons_append]
      by_cases h1 : c = '"'
      · simp only [if_pos h1, Option.some.injEq, Prod.mk.injEq] at h ⊢
        obtain ⟨rfl, rfl⟩ := h
        exact ⟨rfl, rfl⟩
      · by_cases h2 : c = '\\'
        · simp only [if_neg h1, if_pos h2] at h ⊢
          cases hd : decodeEscape rest with
          | none => rw [hd] at h; exact absurd h (by simp)
          | some p =>
            rw [hd] at h
            rw [decodeEscape_append suf rest p.1 p.2 hd]
            exact ih _ _ s r h
        · by_cases h3 : c.toNat < 32
          · simp only [if_neg h1, if_neg h2, if_pos h3] at h
            exact absurd h (by simp)
          · simp only [if_neg h1, if_neg h2, if_neg h3] at h ⊢
            exact ih _ _ s r h

theorem parseIntPart_append {suf : List Char} (hs : sufNeutral suf) :
    ∀ (cs : List Char) (n : Int) (r : List Char),
      parseIntPart cs = some (n, r) → parseIntPart (cs ++ suf) = some (n, r ++ suf) := by
  intro cs n r h
  cases ht : cs.takeWhile Char.isDigit with
  | nil => simp only [parseIntPart, ht] at h; exact absurd h (by simp)
  | cons d0 drest =>
    cases hd : cs.dropWhile Char.isDigit with
    | nil =>
      simp only [parseIntPart, ht, hd] at h
      have hcs : cs.takeWhile Char.isDigit = cs := by
        have := List.takeWhile_append_dropWhile Char.isDigit cs
        rw [hd] at this
        simpa using this
      have h1 : (cs ++ suf).takeWhile Char.isDigit = d0 :: drest := by
        rw [List.takeWhile_append, if_pos (by rw [hcs]), sufNeutral_takeWhile hs,
          List.append_nil, ← hcs, ht]
      have h2 : (cs ++ suf).dropWhile Char.isDigit = suf := by
        rw [List.dropWhile_append, if_pos (by rw [hd]; rfl), sufNeutral_dropWhile hs]
      simp only [parseIntPart, h1, h2]
      by_cases hz : d0 = '0' ∧ drest ≠ []
      · rw [if_pos hz] at h; exact absurd h (by simp)
      · rw [if_neg hz] at h
        rw [if_neg hz]
        cases hsuf : suf with
        | nil =>
          simp only [Option.some.injEq, Prod.mk.injEq] at h
          obtain ⟨rfl, rfl⟩ := h
          simp
        | cons s0 s' =>
          have hns := hs s0 (by rw [hsuf]; rfl)
          simp only [Option.some.injEq, Prod.mk.injEq] at h
          obtain ⟨rfl, rfl⟩ := h
          simp [hns.2.1, hns.2.2.1, hns.2.2.2]
    | cons r0 r' =>
      simp only [parseIntPart, ht, hd] at h
      have h1 : (cs ++ suf).takeWhile Char.isDigit = d0 :: drest := by
        rw [List.takeWhile_append, if_neg, ht]
        intro hlen
        have hsplit := List.takeWhile_append_dropWhile Char.isDigit cs
        rw [hd] at hsplit
        have : cs.length = (cs.takeWhile Char.isDigit).length + (r0 :: r').length := by
          conv_lhs => rw [← hsplit]
          simp
        simp [hlen] at this
      have h2 : (cs ++ suf).dropWhile Char.isDigit = (r0 :: r') ++ suf := by
        rw [List.dropWhile_append, if_neg (by rw [hd]; simp), hd]
      simp only [parseIntPart, h1, h2, List.cons_append]
      by_cases hz : d0 = '0' ∧ drest ≠ []
      · rw [if_pos hz] at h; exact absurd h (by simp)
      · rw [if_neg hz] at h
        rw [if_neg hz]
        by_cases hf : r0 = '.' ∨ r0 = 'e' ∨ r0 = 'E'
        · rw [if_pos hf] at h; exact absurd h (by simp)
        · rw [if_neg hf] at h
          rw [if_neg hf]
          simp only [Option.some.injEq, Prod.mk.injEq] at h
          obtain ⟨rfl, rfl⟩ := h
          simp

theorem parseNum_append {suf : List Char} (hs : sufNeutral suf) :
    ∀ (cs : List Char) (v : Value) (r : List Char),
      parseNum cs = some (v, r) → parseNum (cs ++ suf) = some (v, r ++ suf) := by
  intro cs v r h
  cases cs with
  | nil => simp [parseNum] at h
  | cons c rest =>
    simp only [parseNum, List.cons_append] at h ⊢
    by_cases hm : c = '-'
    · rw [if_pos hm] at h ⊢
      cases hp : parseIntPart rest with
      | none => rw [hp] at h; exact absurd h (by simp)
      | some p =>
        rw [hp] at h
        rw [parseIntPart_append hs rest p.1 p.2 (by rw [hp])]
        simp only [Option.map_some', Option.some.injEq, Prod.mk.injEq] at h ⊢
        exact ⟨h.1, by rw [← h.2]⟩
    · rw [if_neg hm] at h ⊢
      cases hp : parseIntPart (c :: rest) with
      | none => rw [hp] at h; exact absurd h (by simp)
      | some p =>
        rw [hp] at h
        have := parseIntPart_append hs (c :: rest) p.1 p.2 (by rw [hp])
        rw [List.cons_append] at this
        rw [this]
        simp only [Option.map_some', Option.some.injEq, Prod.mk.injEq] at h ⊢
        exact ⟨h.1, by rw [← h.2]⟩

theorem parseNum_head {c : Char} {rest : List Char} {v : Value} {r : List Char}
    (h : parseNum (c :: rest) = some (v, r)) : c.isDigit = true ∨ c = '-' := by
  by_cases hm : c = '-'
  · exact Or.inr hm
  · left
    simp only [parseNum, if_neg hm] at h
    cases hp : parseIntPart (c :: rest) with
    | none => rw [hp] at h; exact absurd h (by simp)
    | some p =>
      by_contra hnd
      simp only [parseIntPart, List.takeWhile_cons] at hp
      rw [if_neg (by simpa using hnd)] at hp
      exact absurd hp (by simp)

theorem parse_mono : ∀ (f f' : Nat), f ≤ f' →
    (∀ cs r, parseVal f cs = some r → parseVal f' cs = some r)
  ∧ (∀ cs r, parseArrStart f cs = some r → parseArrStart f' cs = some r)
  ∧ (∀ cs acc r, parseArrItems f cs acc = some r → parseArrItems f' cs acc = some r)
  ∧ (∀ cs r, parseObjStart f cs = some r → parseObjStart f' cs = some r)
  ∧ (∀ cs acc r, parseObjItems f cs acc = some r → parseObjItems f' cs acc = some r) := by
  intro f
  induction f with
  | zero =>
    intro f' _
    refine ⟨?_, ?_, ?_, ?_, ?_⟩
    · intro cs r h; simp [parseVal] at h
    · intro cs r h; simp [parseArrStart] at h
    · intro cs acc r h; simp [parseArrItems] at h
    · intro cs r h; simp [parseObjStart] at h
    · intro cs acc r h; simp [parseObjItems] at h
  | succ f ih =>
    intro f' hle
    obtain ⟨f2, rfl⟩ : ∃ f2, f' = f2 + 1 := ⟨f' - 1, by omega⟩
    have hle2 : f ≤ f2 := by omega
    have IH := ih f2 hle2
    refine ⟨?_, ?_, ?_, ?_, ?_⟩
    · intro cs r h
      simp only [parseVal] at h ⊢
      cases hsk : skipWs cs with
      | nil => simp only [hsk] at h; exact absurd h (by simp)
      | cons c rest =>
        simp only [hsk] at h ⊢
        by_cases h1 : c = '"'
        · simp only [if_pos h1] at h ⊢
          cases hps : parseStringBody f [] rest with
          | none => simp only [hps] at h; exact absurd h (by simp)
          | some p =>
            obtain ⟨s, r1⟩ := p
            simp only [hps] at h
            simp only [psb_mono f f2 hle2 [] rest (s, r1) hps]
            exact h
        · by_cases h2 : c = '['
          · simp only [if_neg h1, if_pos h2] at h ⊢
            exact IH.2.1 rest r h
          · by_cases h3 : c = '{'
            · simp only [if_neg h1, if_neg h2, if_pos h3] at h ⊢
              exact IH.2.2.2.1 rest r h
            · simp only [if_neg h1, if_neg h2, if_neg h3] at h ⊢
              exact h
    · intro cs r h
      simp only [parseArrStart] at h ⊢
      cases hsk : skipWs cs with
      | nil =>
        simp only [hsk] at h ⊢
        exact IH.2.2.1 cs [] r h
      | cons c rest =>
        simp only [hsk] at h ⊢
        by_cases h1 : c = ']'
        · simp only [if_pos h1] at h ⊢; exact h
        · simp only [if_neg h1] at h ⊢
          exact IH.2.2.1 cs [] r h
    · intro cs acc r h
      simp only [parseArrItems] at h ⊢
      cases hp : parseVal f cs with
      | none => simp only [hp] at h; exact absurd h (by simp)
      | some p =>
        obtain ⟨v, r1⟩ := p
        simp only [hp] at h
        simp only [IH.1 cs (v, r1) hp]
        cases hsk : skipWs r1 with
        | nil => simp only [hsk] at h; exact absurd h (by simp)
        | cons c r2 =>
          simp only [hsk] at h ⊢
          by_cases h1 : c = ','
          · simp only [if_pos h1] at h ⊢
            exact IH.2.2.1 r2 (v :: acc) r h
          · by_cases h2 : c = ']'
            · simp only [if_neg h1, if_pos h2] at h ⊢; exact h
            · simp only [if_neg h1, if_neg h2] at h; exact absurd h (by simp)
    · intro cs r h
      simp only [parseObjStart] at h ⊢
      cases hsk : skipWs cs with
      | nil =>
        simp only [hsk] at h ⊢
        exact IH.2.2.2.2 cs [] r h
      | cons c rest =>
        simp only [hsk] at h ⊢
        by_cases h1 : c = '}'
        · simp only [if_pos h1] at h ⊢; exact h
        · simp only [if_neg h1] at h ⊢
          exact IH.2.2.2.2 cs [] r h
    · intro cs acc r h
      simp only [parseObjItems] at h ⊢
      cases hsk : skipWs cs with
      | nil => simp only [hsk] at h; exact absurd h (by simp)
      | cons c r1 =>
        simp only [hsk] at h ⊢
        by_cases h1 : c = '"'
        · simp only [if_pos h1] at h ⊢
          cases hps : parseStringBody f [] r1 with
          | none => simp only [hps] at h; exact absurd h (by simp)
          | some p =>
            obtain ⟨k, r2⟩ := p
            simp only [hps] at h
            simp only [psb_mono f f2 hle2 [] r1 (k, r2) hps]
            cases hsk2 : skipWs r2 with
            | nil => simp only [hsk2] at h; exact absurd h (by simp)
            | cons c3 r3 =>
              simp only [hsk2] at h ⊢
              by_cases h2 : c3 = ':'
              · simp only [if_pos h2] at h ⊢
                cases hpv : parseVal f r3 with
                | none => simp only [hpv] at h; exact absurd h (by simp)
                | some q =>
                  obtain ⟨v, r4⟩ := q
                  simp only [hpv] at h
                  simp only [IH.1 r3 (v, r4) hpv]
                  cases hsk3 : skipWs r4 with
                  | nil => simp only [hsk3] at h; exact absurd h (by simp)
                  | cons c4 r5 =>
                    simp only [hsk3] at h ⊢
                    by_cases h3 : c4 = ','
                    · simp only [if_pos h3] at h ⊢
                      exact IH.2.2.2.2 r5 ((k, v) :: acc) r h
                    · by_cases h4 : c4 = '}'
                      · simp only [if_neg h3, if_pos h4] at h ⊢; exact h
                      · simp only [if_neg h3, if_neg h4] at h; exact absurd h (by simp)
              · simp only [if_neg h2] at h; exact absurd h (by simp)
        · simp only [if_neg h1] at h; exact absurd h (by simp)

theorem skipWs_append_cons {cs : List Char} {c : Char} {rest : List Char} (suf : List Char)
    (hsk : skipWs cs = c :: rest) : skipWs (cs ++ suf) = c :: (rest ++ suf) := by
  rw [skipWs_append cs suf (by rw [hsk]; simp), hsk]
  rfl

theorem isPrefixOf_cons_head_ne {a c : Char} (l cs : List Char) (h : ¬ a = c) :
    List.isPrefixOf (a :: l) (c :: cs) = false := by
  simp [List.isPrefixOf, h]

theorem parse_append {suf : List Char} (hs : sufNeutral suf) : ∀ (f : Nat),
    (∀ cs v r, parseVal f cs = some (v, r) → parseVal f (cs ++ suf) = some (v, r ++ suf))
  ∧ (∀ cs v r, parseArrStart f cs = some (v, r) → parseArrStart f (cs ++ suf) = some (v, r ++ suf))
  ∧ (∀ cs acc v r, parseArrItems f cs acc = some (v, r) →
      parseArrItems f (cs ++ suf) acc = some (v, r ++ suf))
  ∧ (∀ cs v r, parseObjStart f cs = some (v, r) → parseObjStart f (cs ++ suf) = some (v, r ++ suf))
  ∧ (∀ cs acc v r, parseObjItems f cs acc = some (v, r) →
      parseObjItems f (cs ++ suf) acc = some (v, r ++ suf)) := by
  intro f
  induction f with
  | zero =>
    refine ⟨?_, ?_, ?_, ?_, ?_⟩
    · intro cs v r h; simp [parseVal] at h
    · intro cs v r h; simp [parseArrStart] at h
    · intro cs acc v r h; simp [parseArrItems] at h
    · intro cs v r h; simp [parseObjStart] at h
    · intro cs acc v r h; simp [parseObjItems] at h
  | succ f IH =>
    refine ⟨?_, ?_, ?_, ?_, ?_⟩
    · intro cs v r h
      simp only [parseVal] at h ⊢
      cases hsk : skipWs cs with
      | nil => simp only [hsk] at h; exact absurd h (by simp)
      | cons c rest =>
        simp only [hsk, skipWs_append_cons suf hsk] at h ⊢
        by_cases h1 : c = '"'
        · simp only [if_pos h1] at h ⊢
          cases hps : parseStringBody f [] rest with
          | none => simp only [hps] at h; exact absurd h (by simp)
          | some p =>
            obtain ⟨s, r1⟩ := p
            simp only [hps] at h
            simp only [psb_append suf f [] rest s r1 hps]
            simp only [Option.some.injEq, Prod.mk.injEq] at h ⊢
            exact ⟨h.1, by rw [← h.2]⟩
        · by_cases h2 : c = '['
          · simp only [if_neg h1, if_pos h2] at h ⊢
            exact IH.2.1 rest v r h
          · by_cases h3 : c = '{'
            · simp only [if_neg h1, if_neg h2, if_pos h3] at h ⊢
              exact IH.2.2.2.1 rest v r h
            · simp only [if_neg h1, if_neg h2, if_neg h3] at h ⊢
              by_cases h4 : List.isPrefixOf ['n', 'u', 'l', 'l'] (c :: rest) = true
              · have h4' : List.isPrefixOf ['n', 'u', 'l', 'l'] (c :: (rest ++ suf)) = true :=
                  isPrefixOf_append_mono _ (c :: rest) suf h4
                simp only [if_pos h4, Option.some.injEq, Prod.mk.injEq] at h
                simp only [if_pos h4']
                have hlen : 4 ≤ (c :: rest).length := isPrefixOf_length_le _ _ h4
                have hdrop : (c :: (rest ++ suf)).drop 4 = (c :: rest).drop 4 ++ suf := by
                  rw [show c :: (rest ++ suf) = (c :: rest) ++ suf from rfl]
                  exact List.drop_append_of_le_length hlen
                obtain ⟨rfl, rfl⟩ := h
                rw [hdrop]
              · by_cases h5 : List.isPrefixOf ['t', 'r', 'u', 'e'] (c :: rest) = true
                · have h5' : List.isPrefixOf ['t', 'r', 'u', 'e'] (c :: (rest ++ suf)) = true :=
                    isPrefixOf_append_mono _ (c :: rest) suf h5
                  have h4'f : List.isPrefixOf ['n', 'u', 'l', 'l'] (c :: (rest ++ suf)) = false := by
                    have hc : ¬ ('n' : Char) = c := by
                      intro heq
                      rw [← heq] at h5
                      simp [List.isPrefixOf] at h5
                    exact isPrefixOf_cons_head_ne _ _ hc
                  simp only [if_neg h4, if_pos h5, Option.some.injEq, Prod.mk.injEq] at h
                  simp only [h4'f, Bool.false_eq_true, if_false, if_pos h5']
                  have hlen : 4 ≤ (c :: rest).length := isPrefixOf_length_le _ _ h5
                  have hdrop : (c :: (rest ++ suf)).drop 4 = (c :: rest).drop 4 ++ suf := by
                    rw [show c :: (rest ++ suf) = (c :: rest) ++ suf from rfl]
                    exact List.drop_append_of_le_length hlen
                  obtain ⟨rfl, rfl⟩ := h
                  rw [hdrop]
                · by_cases h6 : List.isPrefixOf ['f', 'a', 'l', 's', 'e'] (c :: rest) = true
                  · have h6' : List.isPrefixOf ['f', 'a', 'l', 's', 'e'] (c :: (rest ++ suf)) = true :=
                      isPrefixOf_append_mono _ (c :: rest) suf h6
                    have hcf : ('f' : Char) = c := by
                      by_contra hne
                      rw [isPrefixOf_cons_head_ne _ _ hne] at h6
                      exact absurd h6 (by simp)
                    have h4'f : List.isPrefixOf ['n', 'u', 'l', 'l'] (c :: (rest ++ suf)) = false :=
                      isPrefixOf_cons_head_ne _ _ (by rw [← hcf]; decide)
                    have h5'f : List.isPrefixOf ['t', 'r', 'u', 'e'] (c :: (rest ++ suf)) = false :=
                      isPrefixOf_cons_head_ne _ _ (by rw [← hcf]; decide)
                    simp only [if_neg h4, if_neg h5, if_pos h6, Option.some.injEq,
                      Prod.mk.injEq] at h
                    simp only [h4'f, h5'f, Bool.false_eq_true, if_false, if_pos h6']
                    have hlen : 5 ≤ (c :: rest).length := isPrefixOf_length_le _ _ h6
                    have hdrop : (c :: (rest ++ suf)).drop 5 = (c :: rest).drop 5 ++ suf := by
                      rw [show c :: (rest ++ suf) = (c :: rest) ++ suf from rfl]
                      exact List.drop_append_of_le_length hlen
                    obtain ⟨rfl, rfl⟩ := h
                    rw [hdrop]
                  · simp only [if_neg h4, if_neg h5, if_neg h6] at h
                    have hhead := parseNum_head h
                    have hcn : ¬ ('n' : Char) = c := by
                      rcases hhead with hdg | rfl
                      · intro heq; rw [← heq] at hdg; exact absurd hdg (by decide)
                      · decide
                    have hct : ¬ ('t' : Char) = c := by
                      rcases hhead with hdg | rfl
                      · intro heq; rw [← heq] at hdg; exact absurd hdg (by decide)
                      · decide
                    have hcfa : ¬ ('f' : Char) = c := by
                      rcases hhead with hdg | rfl
                      · intro heq; rw [← heq] at hdg; exact absurd hdg (by decide)
                      · decide
                    simp only [isPrefixOf_cons_head_ne _ _ hcn, isPrefixOf_cons_head_ne _ _ hct,
                      isPrefixOf_cons_head_ne _ _ hcfa, Bool.false_eq_true, if_false]
                    exact parseNum_append hs (c :: rest) v r h
    · intro cs v r h
      simp only [parseArrStart] at h ⊢
      cases hsk : skipWs cs with
      | nil =>
        simp only [hsk] at h
        rw [parseArrItems_nilWs [] hsk f] at h
        exact absurd h (by simp)
      | cons c rest =>
        simp only [hsk, skipWs_append_cons suf hsk] at h ⊢
        by_cases h1 : c = ']'
        · simp only [if_pos h1, Option.some.injEq, Prod.mk.injEq] at h ⊢
          exact ⟨h.1, by rw [← h.2]⟩
        · simp only [if_neg h1] at h ⊢
          exact IH.2.2.1 cs [] v r h
    · intro cs acc v r h
      simp only [parseArrItems] at h ⊢
      cases hp : parseVal f cs with
      | none => simp only [hp] at h; exact absurd h (by simp)
      | some p =>
        obtain ⟨v0, r1⟩ := p
        simp only [hp] at h
        simp only [IH.1 cs v0 r1 hp]
        cases hsk : skipWs r1 with
        | nil => simp only [hsk] at h; exact absurd h (by simp)
        | cons c r2 =>
          simp only [hsk, skipWs_append_cons suf hsk] at h ⊢
          by_cases h1 : c = ','
          · simp only [if_pos h1] at h ⊢
            exact IH.2.2.1 r2 (v0 :: acc) v r h
          · by_cases h2 : c = ']'
            · simp only [if_neg h1, if_pos h2, Option.some.injEq, Prod.mk.injEq] at h ⊢
              exact ⟨h.1, by rw [← h.2]⟩
            · simp only [if_neg h1, if_neg h2] at h; exact absurd h (by simp)
    · intro cs v r h
      simp only [parseObjStart] at h ⊢
      cases hsk : skipWs cs with
      | nil =>
        simp only [hsk] at h
        rw [parseObjItems_nilWs [] hsk f] at h
        exact absurd h (by simp)
      | cons c rest =>
        simp only [hsk, skipWs_append_cons suf hsk] at h ⊢
        by_cases h1 : c = '}'
        · simp only [if_pos h1, Option.some.injEq, Prod.mk.injEq] at h ⊢
          exact ⟨h.1, by rw [← h.2]⟩
        · simp only [if_neg h1] at h ⊢
          exact IH.2.2.2.2 cs [] v r h
    · intro cs acc v r h
      simp only [parseObjItems] at h ⊢
      cases hsk : skipWs cs with
      | nil => simp only [hsk] at h; exact absurd h (by simp)
      | cons c r1 =>
        simp only [hsk, skipWs_append_cons suf hsk] at h ⊢
        by_cases h1 : c = '"'
        · simp only [if_pos h1] at h ⊢
          cases hps : parseStringBody f [] r1 with
          | none => simp only [hps] at h; exact absurd h (by simp)
          | some p =>
            obtain ⟨k, r2⟩ := p
            simp only [hps] at h
            simp only [psb_append suf f [] r1 k r2 hps]
            cases hsk2 : skipWs r2 with
            | nil => simp only [hsk2] at h; exact absurd h (by simp)
            | cons c3 r3 =>
              simp only [hsk2, skipWs_append_cons suf hsk2] at h ⊢
              by_cases h2 : c3 = ':'
              · simp only [if_pos h2] at h ⊢
                cases hpv : parseVal f r3 with
                | none => simp only [hpv] at h; exact absurd h (by simp)
                | some q =>
                  obtain ⟨v0, r4⟩ := q
                  simp only [hpv] at h
                  simp only [IH.1 r3 v0 r4 hpv]
                  cases hsk3 : skipWs r4 with
                  | nil => simp only [hsk3] at h; exact absurd h (by simp)
                  | cons c4 r5 =>
                    simp only [hsk3, skipWs_append_cons suf hsk3] at h ⊢
                    by_cases h3 : c4 = ','
                    · simp only [if_pos h3] at h ⊢
                      exact IH.2.2.2.2 r5 ((k, v0) :: acc) v r h
                    · by_cases h4 : c4 = '}'
                      · simp only [if_neg h3, if_pos h4, Option.some.injEq,
                          Prod.mk.injEq] at h ⊢
                        exact ⟨h.1, by rw [← h.2]⟩
                      · simp only [if_neg h3, if_neg h4] at h; exact absurd h (by simp)
              · simp only [if_neg h2] at h; exact absurd h (by simp)
        · simp only [if_neg h1] at h; exact absurd h (by simp)

theorem sufNeutral_nl : sufNeutral ['\n'] := by
  intro c hc
  simp only [List.head?_cons, Option.some.injEq] at hc
  subst hc
  refine ⟨by decide, by decide, by decide, by decide⟩

theorem parseVal_ws_cons {c : Char} (hws : isJsonWs c = true) {f : Nat} (hf : 0 < f)
    (cs : List Char) : parseVal f (c :: cs) = parseVal f cs := by
  obtain ⟨f2, rfl⟩ : ∃ f2, f = f2 + 1 := ⟨f - 1, by omega⟩
  simp only [parseVal, skipWs_cons_ws cs hws]

theorem loadsChars_append_wsnl {cs : List Char} {v : Value}
    (h : loadsChars cs = some v) : loadsChars ('\n' :: (cs ++ ['\n'])) = some v := by
  simp only [loadsChars] at h ⊢
  cases hp : parseVal (2 * cs.length + 8) cs with
  | none => simp only [hp] at h; exact absurd h (by simp)
  | some p =>
    obtain ⟨v0, rest⟩ := p
    simp only [hp] at h
    by_cases hall : rest.all isJsonWs = true
    · rw [if_pos hall] at h
      have hmono := (parse_mono (2 * cs.length + 8) (2 * cs.length + 12)
        (by omega)).1 cs (v0, rest) hp
      have happ := (parse_append sufNeutral_nl (2 * cs.length + 12)).1 cs v0 rest hmono
      have hlen : 2 * ('\n' :: (cs ++ ['\n'])).length + 8 = 2 * cs.length + 12 := by
        simp
        omega
      rw [hlen]
      have hws : parseVal (2 * cs.length + 12) ('\n' :: (cs ++ ['\n'])) =
          some (v0, rest ++ ['\n']) := by
        rw [parseVal_ws_cons (by decide) (by omega)]
        exact happ
      simp only [hws]
      rw [if_pos (by rw [List.all_append, hall]; decide)]
      exact h
    · rw [if_neg hall] at h
      exact absurd h (by simp)

theorem pyStrip_of_ends (cs : List Char) (h1 : ∀ c, cs.head? = some c → isPyWs c = false)
    (h2 : ∀ c, cs.getLast? = some c → isPyWs c = false) : pyStrip cs = cs := by
  unfold pyStrip
  have hd : cs.dropWhile isPyWs = cs := by
    cases cs with
    | nil => rfl
    | cons c cs' =>
      rw [List.dropWhile_cons, if_neg]
      simp [h1 c rfl]
  rw [hd]
  have hd2 : cs.reverse.dropWhile isPyWs = cs.reverse := by
    cases hr : cs.reverse with
    | nil => simp
    | cons c cs' =>
      rw [List.dropWhile_cons, if_neg]
      have hc : cs.getLast? = some c := by
        rw [← List.head?_reverse, hr]
        rfl
      simp [h2 c hc]
  rw [hd2, List.reverse_reverse]

theorem fenced_strip (s : String) :
    stripFence (pyStrip ("```json\n" ++ s ++ "\n```").data) = '\n' :: (s.data ++ ['\n']) := by
  have hdata : ("```json\n" ++ s ++ "\n```").data
      = '`' :: '`' :: '`' :: 'j' :: 's' :: 'o' :: 'n' :: '\n' :: (s.data ++ ['\n', '`', '`', '`']) := by
    rw [String.data_append, String.data_append]
    rfl
  rw [hdata]
  rw [pyStrip_of_ends]
  · simp only [stripFence]
    have hpre : List.isPrefixOf ['`', '`', '`', 'j', 's', 'o', 'n']
        ('`' :: '`' :: '`' :: 'j' :: 's' :: 'o' :: 'n' :: '\n' ::
          (s.data ++ ['\n', '`', '`', '`'])) = true := by
      simp [List.isPrefixOf]
    rw [if_pos hpre]
    have hdrop : ('`' :: '`' :: '`' :: 'j' :: 's' :: 'o' :: 'n' :: '\n' ::
        (s.data ++ ['\n', '`', '`', '`'])).drop 7 = '\n' :: (s.data ++ ['\n', '`', '`', '`']) := rfl
    rw [hdrop]
    have hshape : '\n' :: (s.data ++ ['\n', '`', '`', '`'])
        = ('\n' :: (s.data ++ ['\n'])) ++ ['`', '`', '`'] := by
      simp
    have hsuf : List.isSuffixOf ['`', '`', '`']
        ('\n' :: (s.data ++ ['\n', '`', '`', '`'])) = true :=
      (List.isSuffixOf_iff_suffix).mpr ⟨'\n' :: (s.data ++ ['\n']), hshape.symm⟩
    rw [if_pos hsuf]
    rw [hshape]
    have hlen : (('\n' :: (s.data ++ ['\n'])) ++ ['`', '`', '`']).length - 3
        = ('\n' :: (s.data ++ ['\n'])).length := by
      simp
    rw [hlen, List.take_left]
  · intro c hc
    simp only [List.head?_cons, Option.some.injEq] at hc
    subst hc
    decide
  · intro c hc
    have hshape : '`' :: '`' :: '`' :: 'j' :: 's' :: 'o' :: 'n' :: '\n' ::
        (s.data ++ ['\n', '`', '`', '`'])
        = ('`' :: '`' :: '`' :: 'j' :: 's' :: 'o' :: 'n' :: '\n' :: (s.data ++ ['\n', '`', '`'])) ++ ['`'] := by
      simp
    rw [hshape, List.getLast?_concat] at hc
    simp only [Option.some.injEq] at hc
    subst hc
    decide

/-! ## Record and filter lemmas -/

theorem lookupKey_cons (a : String) (b : Value) (rest : Record) (k : String) :
    lookupKey ((a, b) :: rest) k = if a = k then some b else lookupKey rest k := rfl

theorem lookupKey_setKey_other (r : Record) (k k' : String) (v : Value) (h : k' ≠ k) :
    lookupKey (setKey r k v) k' = lookupKey r k' := by
  induction r with
  | nil =>
    show lookupKey [(k, v)] k' = lookupKey [] k'
    rw [lookupKey_cons, if_neg (fun hh => h hh.symm)]
  | cons kv rest ih =>
    obtain ⟨k0, v0⟩ := kv
    show lookupKey (if k0 = k then (k, v) :: rest else (k0, v0) :: setKey rest k v) k'
        = lookupKey ((k0, v0) :: rest) k'
    by_cases hk : k0 = k
    · rw [if_pos hk, lookupKey_cons, lookupKey_cons,
        if_neg (fun hh => h hh.symm), if_neg (fun hh => h (hk.symm.trans hh).symm)]
    · rw [if_neg hk, lookupKey_cons, lookupKey_cons]
      by_cases hk' : k0 = k'
      · rw [if_pos hk', if_pos hk']
      · rw [if_neg hk', if_neg hk', ih]

theorem lookupKey_setKey_same (r : Record) (k : String) (v : Value) :
    lookupKey (setKey r k v) k = some v := by
  induction r with
  | nil =>
    show lookupKey [(k, v)] k = some v
    rw [lookupKey_cons, if_pos rfl]
  | cons kv rest ih =>
    obtain ⟨k0, v0⟩ := kv
    show lookupKey (if k0 = k then (k, v) :: rest else (k0, v0) :: setKey rest k v) k = some v
    by_cases hk : k0 = k
    · rw [if_pos hk, lookupKey_cons, if_pos rfl]
    · rw [if_neg hk, lookupKey_cons, if_neg hk, ih]

theorem prepareItem_cases (ts : String) (item : Record) :
    (∃ d, lookupKey item "extracted_at" = some (Value.datetime d) ∧
      prepareItem ts item
        = setKey (setKey item "updated_at" (Value.str ts)) "extracted_at" (Value.str d))
  ∨ ((∀ d, lookupKey item "extracted_at" ≠ some (Value.datetime d)) ∧
      prepareItem ts item = setKey item "updated_at" (Value.str ts)) := by
  have hex : lookupKey (setKey item "updated_at" (Value.str ts)) "extracted_at"
      = lookupKey item "extracted_at" :=
    lookupKey_setKey_other item "updated_at" "extracted_at" (Value.str ts) (by decide)
  cases hm : lookupKey (setKey item "updated_at" (Value.str ts)) "extracted_at" with
  | none =>
    right
    refine ⟨fun d hd => by rw [← hex, hm] at hd; exact Option.noConfusion hd, ?_⟩
    simp only [prepareItem, hm]
  | some val =>
    cases val with
    | datetime d =>
      left
      exact ⟨d, by rw [← hex, hm], by simp only [prepareItem, hm]⟩
    | null =>
      right
      refine ⟨fun d hd => by rw [← hex, hm] at hd; exact Value.noConfusion (Option.some.inj hd), ?_⟩
      simp only [prepareItem, hm]
    | bool b =>
      right
      refine ⟨fun d hd => by rw [← hex, hm] at hd; exact Value.noConfusion (Option.some.inj hd), ?_⟩
      simp only [prepareItem, hm]
    | num n =>
      right
      refine ⟨fun d hd => by rw [← hex, hm] at hd; exact Value.noConfusion (Option.some.inj hd), ?_⟩
      simp only [prepareItem, hm]
    | str s =>
      right
      refine ⟨fun d hd => by rw [← hex, hm] at hd; exact Value.noConfusion (Option.some.inj hd), ?_⟩
      simp only [prepareItem, hm]
    | arr xs =>
      right
      refine ⟨fun d hd => by rw [← hex, hm] at hd; exact Value.noConfusion (Option.some.inj hd), ?_⟩
      simp only [prepareItem, hm]
    | obj kvs =>
      right
      refine ⟨fun d hd => by rw [← hex, hm] at hd; exact Value.noConfusion (Option.some.inj hd), ?_⟩
      simp only [prepareItem, hm]

theorem filterCategory_cols (df : Frame) (sel : String) :
    (filterCategory df sel).cols = df.cols := by
  simp only [filterCategory]
  split_ifs <;> rfl

theorem filterFlag_cols (df : Frame) (col : String) (toggle : Bool) :
    (filterFlag df col toggle).cols = df.cols := by
  simp only [filterFlag]
  split_ifs <;> rfl

theorem filterFlag_rows_nil (df : Frame) (col : String) (toggle : Bool)
    (h : df.rows = []) : (filterFlag df col toggle).rows = [] := by
  simp only [filterFlag]
  split_ifs <;> simp [h]

theorem filter_comp {α : Type} (p q : α → Bool) (l : List α) :
    (l.filter p).filter q = l.filter (fun a => p a && q a) := by
  induction l with
  | nil => rfl
  | cons a l ih =>
    by_cases hp : p a <;> by_cases hq : q a <;>
      simp [List.filter_cons, hp, hq, ih]

/-! ## Claims -/

/-- C1: `clean_calories` returns the first maximal digit run of its input
as an integer: in general it yields `int` of the head of `re.findall`'s
digit-run list, and on the spec's examples: `"360 Cal" → 360`,
`"No cals" → none`, `"" → none`, `"5 pieces, 230 Cal" → 5` (the first
digit run, not the calorie value). -/
theorem clean_calories_first_digit_run :
    (∀ s : String, clean_calories (Value.str s)
      = Except.ok ((digitRuns s.data).head?.map (fun d => ((digitsToNat d : Nat) : Int))))
  ∧ clean_calories (Value.str "360 Cal") = Except.ok (some 360)
  ∧ clean_calories (Value.str "No cals") = Except.ok none
  ∧ clean_calories (Value.str "") = Except.ok none
  ∧ clean_calories (Value.str "5 pieces, 230 Cal") = Except.ok (some 5) := by
  refine ⟨?_, rfl, rfl, rfl, rfl⟩
  intro s
  simp only [clean_calories, pd_isna_truthy, pyStr]
  cases h : digitRuns s.data <;> simp [h]

/-- C2: per-row allergen normalization: an input that is already a list is
used as-is (normalization is the identity on list-shaped input); a string
bracketed by `[`/`]` is JSON-decoded (`"[\"wheat\",\"dairy\"]"` yields the
two tags; a bracketed non-JSON string is ignored); any other non-empty
string is split on commas with tags trimmed and empties dropped
(`"wheat, dairy"` yields the two tags); the empty string yields `[]`. -/
theorem normalize_allergens_shapes :
    (∀ xs : List Value, normalizeAllergens (Value.arr xs) = xs)
  ∧ normalizeAllergens (Value.str "wheat, dairy") = [Value.str "wheat", Value.str "dairy"]
  ∧ normalizeAllergens (Value.str "[\"wheat\",\"dairy\"]") = [Value.str "wheat", Value.str "dairy"]
  ∧ normalizeAllergens (Value.str "") = []
  ∧ normalizeAllergens (Value.str "[not json]") = [] :=
  ⟨fun _ => rfl, rfl, rfl, rfl, rfl⟩

/-- C3 counterexample: a model response whose content is the valid JSON
array `[]` wrapped in plain Markdown code-fence markers (opening ` ``` `
without the `json` tag).  The structurer's cleanup only strips a leading
` ```json `, so the leading fence remains, the parse fails, and the
structurer returns the empty list — refuting the claim that fenced
wrapping never causes the parse to fail. -/
theorem plain_fence_parse_fails :
    loads "[]" = some (Value.arr [])
  ∧ parseResp "```\n[]\n```" = none
  ∧ structure_menu_simple "2024-01-01T00:00:00" (some "```\n[]\n```") = [] :=
  ⟨rfl, rfl, rfl⟩

/-- C3 (amended): for every model response whose content is a valid JSON
array wrapped in a Markdown code fence whose opening marker is ` ```json `
(and closing marker ` ``` `), the structurer's cleanup strips the fence
markers and the enclosed array parses successfully to the same value. -/
theorem fenced_json_parses (s : String) (items : List Value)
    (h : loads s = some (Value.arr items)) :
    loadsChars (stripFence (pyStrip ("```json\n" ++ s ++ "\n```").data))
      = some (Value.arr items) := by
  rw [fenced_strip s]
  exact loadsChars_append_wsnl h

/-- Witness for C3's amended theorem at the concrete array `[]`. -/
theorem fenced_json_parses_witness :
    loadsChars (stripFence (pyStrip ("```json\n" ++ "[]" ++ "\n```").data))
      = some (Value.arr []) :=
  fenced_json_parses "[]" [] rfl

/-- C4: if the completion call raises (`resp = none`), if parsing the
cleaned response fails, or if the parsed value is not an array (so the
metadata loop raises), `structure_menu_simple` returns the empty list with
no partial result. -/
theorem structurer_empty_on_failure (ts : String) :
    structure_menu_simple ts none = []
  ∧ (∀ content : String, parseResp content = none →
      structure_menu_simple ts (some content) = [])
  ∧ (∀ (content : String) (v : Value), parseResp content = some v →
      (∀ xs, v ≠ Value.arr xs) → structure_menu_simple ts (some content) = []) := by
  refine ⟨rfl, ?_, ?_⟩
  · intro content h
    simp only [structure_menu_simple, h]
  · intro content v h hv
    simp only [structure_menu_simple, h]
    cases v with
    | arr xs => exact absurd rfl (hv xs)
    | null => rfl
    | bool b => rfl
    | num n => rfl
    | str s => rfl
    | obj kvs => rfl
    | datetime d => rfl

/-- Witness for C4 at a raised call, an unparseable response, and a
response parsing to a non-array. -/
theorem structurer_empty_on_failure_witness :
    structure_menu_simple "T" none = []
  ∧ structure_menu_simple "T" (some "oops") = []
  ∧ structure_menu_simple "T" (some "7") = [] :=
  ⟨(structurer_empty_on_failure "T").1,
   (structurer_empty_on_failure "T").2.1 "oops" rfl,
   (structurer_empty_on_failure "T").2.2 "7" (Value.num 7) rfl
     (fun _ hx => Value.noConfusion hx)⟩

/-- C10 counterexample: on a two-element list input, `if pd.isna(x):`
receives an elementwise boolean array and raises `ValueError` outside the
`try` block, so `clean_calories` raises instead of returning — refuting
the claim that it terminates without an exception on every input. -/
theorem clean_calories_raises_on_list :
    clean_calories (Value.arr [Value.num 1, Value.num 2]) = Except.error () := rfl

/-- C10 (amended): for every non-list input (missing values, strings
without digits, numbers, booleans, dicts, datetimes), `clean_calories`
terminates without raising and returns either `none` or a non-negative
integer. -/
theorem clean_calories_total_on_scalars :
    ∀ v : Value, (∀ xs, v ≠ Value.arr xs) →
      ∃ r : Option Int, clean_calories v = Except.ok r ∧ ∀ n, r = some n → 0 ≤ n := by
  have key : ∀ w : Value, pd_isna_truthy w = Except.ok false →
      ∃ r : Option Int, clean_calories w = Except.ok r ∧ ∀ n, r = some n → 0 ≤ n := by
    intro w hw
    simp only [clean_calories, hw]
    cases h : digitRuns (pyStr w).data with
    | nil => exact ⟨none, rfl, fun n hn => by cases hn⟩
    | cons d ds =>
      exact ⟨some ((digitsToNat d : Nat) : Int), rfl, fun n hn => by
        cases hn; exact Int.natCast_nonneg _⟩
  intro v hv
  cases v with
  | arr xs => exact absurd rfl (hv xs)
  | null => exact ⟨none, rfl, fun n hn => by cases hn⟩
  | bool b => exact key _ rfl
  | num n => exact key _ rfl
  | str s => exact key _ rfl
  | obj kvs => exact key _ rfl
  | datetime d => exact key _ rfl

/-- Witness for C10's amended theorem at a digit-free string. -/
theorem clean_calories_total_on_scalars_witness :
    ∃ r : Option Int, clean_calories (Value.str "No cals") = Except.ok r
      ∧ ∀ n, r = some n → 0 ≤ n :=
  clean_calories_total_on_scalars (Value.str "No cals") (fun _ hx => Value.noConfusion hx)

theorem filterCategory_on (df : Frame) (sel : String) (hsel : sel ≠ "All")
    (h : "category" ∈ df.cols) :
    filterCategory df sel
      = ⟨df.cols, df.rows.filter (fun r => eqStr (cell r "category") sel)⟩ := by
  simp only [filterCategory]
  rw [if_pos ⟨hsel, h⟩]

theorem filterCategory_absent (df : Frame) (sel : String) (h : "category" ∉ df.cols) :
    filterCategory df sel = df := by
  simp only [filterCategory]
  rw [if_neg (fun hh => h hh.2)]

theorem filterCategory_all (df : Frame) : filterCategory df "All" = df := by
  simp only [filterCategory]
  rw [if_neg (fun hh => hh.1 rfl)]

theorem filterFlag_on (df : Frame) (col : String) (h : col ∈ df.cols) :
    filterFlag df col true
      = ⟨df.cols, df.rows.filter (fun r => eqTrue (cell r col))⟩ := by
  simp only [filterFlag]
  rw [if_pos ⟨by trivial, h⟩]

theorem filterFlag_absent (df : Frame) (col : String) (t : Bool) (h : col ∉ df.cols) :
    filterFlag df col t = df := by
  simp only [filterFlag]
  rw [if_neg (fun hh => h hh.2)]

theorem filterFlag_off (df : Frame) (col : String) : filterFlag df col false = df := by
  simp only [filterFlag]
  rw [if_neg (fun hh => by cases hh.1)]

/-- C5: the dashboard filters compose conjunctively: with the backing
columns present and a concrete category selected, category + vegetarian
(resp. category + gluten-free) yields exactly the rows satisfying both
predicates; each filter is a no-op when its backing column is absent; and
selecting a category matching no row yields an empty table. -/
theorem filters_conjunctive :
    ∀ (df : Frame) (sel : String),
      ("category" ∈ df.cols → "is_vegetarian" ∈ df.cols → sel ≠ "All" →
        applyFilters df sel true false
          = ⟨df.cols, df.rows.filter (fun r =>
              eqStr (cell r "category") sel && eqTrue (cell r "is_vegetarian"))⟩)
    ∧ ("category" ∈ df.cols → "is_gluten_free" ∈ df.cols → sel ≠ "All" →
        applyFilters df sel false true
          = ⟨df.cols, df.rows.filter (fun r =>
              eqStr (cell r "category") sel && eqTrue (cell r "is_gluten_free"))⟩)
    ∧ ("category" ∉ df.cols →
        ∀ veg gf, applyFilters df sel veg gf = applyFilters df "All" veg gf)
    ∧ ("is_vegetarian" ∉ df.cols →
        ∀ gf, applyFilters df sel true gf = applyFilters df sel false gf)
    ∧ ("is_gluten_free" ∉ df.cols →
        ∀ veg, applyFilters df sel veg true = applyFilters df sel veg false)
    ∧ ("category" ∈ df.cols → sel ≠ "All" →
        (∀ r ∈ df.rows, eqStr (cell r "category") sel = false) →
        ∀ veg gf, (applyFilters df sel veg gf).rows = []) := by
  intro df sel
  refine ⟨?_, ?_, ?_, ?_, ?_, ?_⟩
  · intro hcat hveg hsel
    simp only [applyFilters]
    rw [filterCategory_on df sel hsel hcat]
    simp only [filterFlag_off,
      filterFlag_on ⟨df.cols, df.rows.filter (fun r => eqStr (cell r "category") sel)⟩
        "is_vegetarian" hveg]
    rw [filter_comp]
  · intro hcat hgf hsel
    simp only [applyFilters]
    rw [filterCategory_on df sel hsel hcat]
    simp only [filterFlag_off,
      filterFlag_on ⟨df.cols, df.rows.filter (fun r => eqStr (cell r "category") sel)⟩
        "is_gluten_free" hgf]
    rw [filter_comp]
  · intro hcat veg gf
    simp only [applyFilters]
    rw [filterCategory_absent df sel hcat, filterCategory_all df]
  · intro hveg gf
    simp only [applyFilters]
    rw [filterFlag_absent _ _ true (by rw [filterCategory_cols]; exact hveg),
      filterFlag_off]
  · intro hgf veg
    simp only [applyFilters]
    rw [filterFlag_absent _ _ true (by rw [filterFlag_cols, filterCategory_cols]; exact hgf),
      filterFlag_off]
  · intro hcat hsel hall veg gf
    have h1 : (filterCategory df sel).rows = [] := by
      rw [filterCategory_on df sel hsel hcat]
      exact List.filter_eq_nil_iff.mpr (fun r hr => by simp [hall r hr])
    simp only [applyFilters]
    exact filterFlag_rows_nil _ _ _ (filterFlag_rows_nil _ _ _ h1)

/-- Witness for C5 at concrete frames: both conjunctive combinations, the
three no-op cases, and the empty-result case. -/
theorem filters_conjunctive_witness :
    applyFilters wFrame "sides" true false
      = ⟨wFrame.cols, wFrame.rows.filter (fun r =>
          eqStr (cell r "category") "sides" && eqTrue (cell r "is_vegetarian"))⟩
  ∧ applyFilters wFrame "sides" false true
      = ⟨wFrame.cols, wFrame.rows.filter (fun r =>
          eqStr (cell r "category") "sides" && eqTrue (cell r "is_gluten_free"))⟩
  ∧ (∀ veg gf, applyFilters wFrameNoCat "sides" veg gf = applyFilters wFrameNoCat "All" veg gf)
  ∧ (∀ gf, applyFilters wFrameNoCat "sides" true gf = applyFilters wFrameNoCat "sides" false gf)
  ∧ (∀ veg, applyFilters wFrameNoCat "All" veg true = applyFilters wFrameNoCat "All" veg false)
  ∧ (∀ veg gf, (applyFilters wFrame "desserts" veg gf).rows = []) :=
  ⟨(filters_conjunctive wFrame "sides").1 (by decide) (by decide) (by decide),
   (filters_conjunctive wFrame "sides").2.1 (by decide) (by decide) (by decide),
   (filters_conjunctive wFrameNoCat "sides").2.2.1 (by decide),
   (filters_conjunctive wFrameNoCat "sides").2.2.2.1 (by decide),
   (filters_conjunctive wFrameNoCat "All").2.2.2.2.1 (by decide),
   (filters_conjunctive wFrame "desserts").2.2.2.2.2 (by decide) (by decide) (by decide)⟩

/-- C6: the loader prepares and attempts an upsert for every record in the
array regardless of the other records' outcomes (the attempted list is the
full prepared list, and prepending a record — even a failing one — leaves
the rest of the run unchanged), and the reported aggregate count is the
number of records whose upsert succeeded. -/
theorem loader_isolation :
    ∀ (outcome : Record → UpsertResult) (ts : String),
      (∀ items : List Record, (loaderRun outcome ts items).2 = items.map (prepareItem ts))
    ∧ (∀ items : List Record, (loaderRun outcome ts items).1
        = items.countP (fun i => decide (outcome (prepareItem ts i) = UpsertResult.ok)))
    ∧ (∀ (item : Record) (rest : List Record),
        loaderRun outcome ts (item :: rest)
          = ((if outcome (prepareItem ts item) = UpsertResult.ok then 1 else 0)
              + (loaderRun outcome ts rest).1,
             prepareItem ts item :: (loaderRun outcome ts rest).2)) := by
  intro outcome ts
  refine ⟨?_, ?_, ?_⟩
  · intro items
    induction items with
    | nil => rfl
    | cons i rest ih => simp [loaderRun, ih]
  · intro items
    induction items with
    | nil => rfl
    | cons i rest ih =>
      simp only [loaderRun, ih, List.countP_cons]
      by_cases hP : outcome (prepareItem ts i) = UpsertResult.ok <;> (simp [hP]; try omega)
  · intro item rest
    rfl

/-- C7: the only fields the loader modifies before an upsert are
`updated_at` (stamped with the current timestamp) and `extracted_at` when
it carries a datetime (coerced to its isoformat string); every other field
reaches the upsert unchanged, and when `extracted_at` is not a datetime
(as for records re-loaded from JSON) it too is unchanged. -/
theorem loader_frame_condition :
    ∀ (ts : String) (item : Record),
      (∀ k : String, k ≠ "updated_at" → k ≠ "extracted_at" →
        lookupKey (prepareItem ts item) k = lookupKey item k)
    ∧ lookupKey (prepareItem ts item) "updated_at" = some (Value.str ts)
    ∧ (∀ d, lookupKey item "extracted_at" = some (Value.datetime d) →
        lookupKey (prepareItem ts item) "extracted_at" = some (Value.str d))
    ∧ ((∀ d, lookupKey item "extracted_at" ≠ some (Value.datetime d)) →
        lookupKey (prepareItem ts item) "extracted_at" = lookupKey item "extracted_at") := by
  intro ts item
  rcases prepareItem_cases ts item with ⟨d, hd, heq⟩ | ⟨hnd, heq⟩
  · refine ⟨?_, ?_, ?_, ?_⟩
    · intro k hk1 hk2
      rw [heq, lookupKey_setKey_other _ _ _ _ hk2, lookupKey_setKey_other _ _ _ _ hk1]
    · rw [heq, lookupKey_setKey_other _ _ _ _ (by decide), lookupKey_setKey_same]
    · intro d' hd'
      rw [hd] at hd'
      obtain rfl : d = d' := by
        cases hd'
        rfl
      rw [heq, lookupKey_setKey_same]
    · intro hno
      exact absurd hd (hno d)
  · refine ⟨?_, ?_, ?_, ?_⟩
    · intro k hk1 hk2
      rw [heq, lookupKey_setKey_other _ _ _ _ hk1]
    · rw [heq, lookupKey_setKey_same]
    · intro d' hd'
      exact absurd hd' (hnd d')
    · intro _
      rw [heq, lookupKey_setKey_other _ _ _ _ (by decide)]

/-- Witness for C7 at a record with a datetime `extracted_at` (frame
condition, stamping, coercion) and one without (unchanged). -/
theorem loader_frame_condition_witness :
    lookupKey (prepareItem "TS" [("id", Value.str "x"), ("extracted_at", Value.datetime "D")])
        "id"
      = lookupKey [("id", Value.str "x"), ("extracted_at", Value.datetime "D")] "id"
  ∧ lookupKey (prepareItem "TS" [("id", Value.str "x"), ("extracted_at", Value.datetime "D")])
        "updated_at"
      = some (Value.str "TS")
  ∧ lookupKey (prepareItem "TS" [("id", Value.str "x"), ("extracted_at", Value.datetime "D")])
        "extracted_at"
      = some (Value.str "D")
  ∧ lookupKey (prepareItem "TS" [("id", Value.str "y")]) "extracted_at"
      = lookupKey [("id", Value.str "y")] "extracted_at" :=
  ⟨(loader_frame_condition "TS" _).1 "id" (by decide) (by decide),
   (loader_frame_condition "TS" _).2.1,
   (loader_frame_condition "TS" _).2.2.1 "D" rfl,
   (loader_frame_condition "TS" [("id", Value.str "y")]).2.2.2 (fun d hd => by cases hd)⟩

/-- C8: `get_menu_data` never propagates a failure: a falsy connection
environment variable yields the fixed error message and the empty frame,
and a fetch error yields an error message (non-empty message list) and the
empty frame. -/
theorem get_menu_data_safe :
    ∀ (url key : Option String) (fetch : Except String (Option (List Record))),
      ((envFalsy url || envFalsy key) = true →
        get_menu_data url key fetch = ([msgMissingEnv], emptyFrame))
    ∧ (∀ e, fetch = Except.error e →
        (get_menu_data url key fetch).2 = emptyFrame
          ∧ (get_menu_data url key fetch).1 ≠ []) := by
  intro url key fetch
  constructor
  · intro h
    simp [get_menu_data, h]
  · intro e he
    by_cases h : (envFalsy url || envFalsy key) = true
    · simp [get_menu_data, h]
    · subst he
      simp [get_menu_data, h]

/-- Witness for C8 at a missing URL and at a failing fetch. -/
theorem get_menu_data_safe_witness :
    get_menu_data none (some "k") (Except.ok (some [])) = ([msgMissingEnv], emptyFrame)
  ∧ (get_menu_data (some "u") (some "k") (Except.error "boom")).2 = emptyFrame
  ∧ (get_menu_data (some "u") (some "k") (Except.error "boom")).1 ≠ [] :=
  ⟨(get_menu_data_safe none (some "k") (Except.ok (some []))).1 rfl,
   ((get_menu_data_safe (some "u") (some "k") (Except.error "boom")).2 "boom" rfl).1,
   ((get_menu_data_safe (some "u") (some "k") (Except.error "boom")).2 "boom" rfl).2⟩

/-- C9: the four KPI counters of `main` are computed from the full fetched
frame, not the filtered one: for every frame they equal `kpis df` and are
unchanged under any change of the category / vegetarian / gluten-free
selections. -/
theorem kpis_unchanged_by_filters :
    ∀ (df : Frame) (sel : String) (veg gf : Bool) (sel' : String) (veg' gf' : Bool),
      (mainView df sel veg gf).1 = kpis df
    ∧ (mainView df sel veg gf).1 = (mainView df sel' veg' gf').1 :=
  fun _ _ _ _ _ _ _ => ⟨rfl, rfl⟩
